import Mathlib

/-!
Verification of the asr_mp QEC decoder pipeline against its specification.

The definitions below are a shallow embedding of the Python sources in
src/asr_mp (decoder.py, union_find_decoder.py, dem_utils.py,
noise_models.py, and the package __init__.py).  Machine bytes are
modelled as natural numbers, numpy bit-packed arrays as lists of bytes,
probabilities as rationals (exact arithmetic in place of float64), and
fallible numpy operations as Except values.  The external solver
libraries (ldpc's BP+OSD, fusion-blossom) are black-box collaborators;
they enter only through function parameters, except where a definition
is explicitly marked as modelled from the specification's contract.
-/

deriving instance DecidableEq for Except

namespace Qec

/-! ## Bit packing

Model of numpy's packbits / unpackbits in "little" bit order, as used by
`decode_shots_bit_packed` in decoder.py and union_find_decoder.py: within
a byte, bit `i` sits at position `i` counting from the least-significant
bit; packing pads the final byte with zero bits. -/

/-- The eight bits of one byte, least-significant first (numpy unpackbits
with bitorder="little" on a single byte). -/
def byteToBits (b : ℕ) : List Bool :=
  (List.range 8).map fun i => b.testBit i

/-- Unpack a row of bytes into its full bit sequence, least-significant
bit of each byte first (numpy unpackbits along the row, bitorder="little",
before any count truncation). -/
def unpackAll : List ℕ → List Bool
  | [] => []
  | b :: rest => byteToBits b ++ unpackAll rest

/-- The byte whose little-endian bits are the given list (at most 8 bits
used; missing bits are zero). -/
def byteOfBits (l : List Bool) : ℕ :=
  l.foldr (fun b acc => (if b then 1 else 0) + 2 * acc) 0

/-- Byte-chunking worker for `packbits_little`; the fuel is an upper
bound on the number of remaining bits, so the recursion is structural. -/
def packbitsAux : ℕ → List Bool → List ℕ
  | 0, _ => []
  | _, [] => []
  | fuel + 1, b :: rest =>
    byteOfBits ((b :: rest).take 8) :: packbitsAux fuel ((b :: rest).drop 8)

/-- Pack a bit list into bytes, eight bits per byte, least-significant
bit first, zero-padding the final byte (numpy packbits, bitorder="little"). -/
def packbits_little (l : List Bool) : List ℕ := packbitsAux l.length l

theorem byteOfBits_cons (b : Bool) (t : List Bool) :
    byteOfBits (b :: t) = (if b then 1 else 0) + 2 * byteOfBits t := rfl

theorem byteOfBits_testBit (l : List Bool) (i : ℕ) :
    (byteOfBits l).testBit i = l.getD i false := by
  induction l generalizing i with
  | nil => simp [byteOfBits, Nat.zero_testBit]
  | cons b t ih =>
    cases i with
    | zero =>
      rw [byteOfBits_cons, Nat.testBit_zero, List.getD_cons_zero]
      cases b <;> simp [Nat.add_mul_mod_self_left]
    | succ i =>
      rw [byteOfBits_cons, Nat.testBit_succ, List.getD_cons_succ]
      have h2 : ((if b then 1 else 0) + 2 * byteOfBits t) / 2 = byteOfBits t := by
        cases b <;> simp <;> omega
      rw [h2]
      exact ih i

theorem byteToBits_byteOfBits (l : List Bool) (h : l.length ≤ 8) :
    byteToBits (byteOfBits l) = l ++ List.replicate (8 - l.length) false := by
  have hfun : (fun i => (byteOfBits l).testBit i) = (fun i => l.getD i false) :=
    funext (byteOfBits_testBit l)
  unfold byteToBits
  rw [hfun]
  match l, h with
  | [], _ => rfl
  | [b0], _ => rfl
  | [b0, b1], _ => rfl
  | [b0, b1, b2], _ => rfl
  | [b0, b1, b2, b3], _ => rfl
  | [b0, b1, b2, b3, b4], _ => rfl
  | [b0, b1, b2, b3, b4, b5], _ => rfl
  | [b0, b1, b2, b3, b4, b5, b6], _ => rfl
  | [b0, b1, b2, b3, b4, b5, b6, b7], _ => rfl

theorem unpackAll_append (a b : List ℕ) :
    unpackAll (a ++ b) = unpackAll a ++ unpackAll b := by
  induction a with
  | nil => rfl
  | cons x t ih => simp [unpackAll, ih]

theorem length_byteToBits (b : ℕ) : (byteToBits b).length = 8 := by
  simp [byteToBits]

theorem length_unpackAll (row : List ℕ) :
    (unpackAll row).length = 8 * row.length := by
  induction row with
  | nil => rfl
  | cons b t ih => simp [unpackAll, length_byteToBits, ih]; ring

theorem unpackAll_packbitsAux (fuel : ℕ) :
    ∀ l : List Bool, l.length ≤ fuel →
      unpackAll (packbitsAux fuel l) =
        l ++ List.replicate (8 * ((l.length + 7) / 8) - l.length) false := by
  induction fuel with
  | zero =>
    intro l hl
    have h0 : l = [] := List.eq_nil_of_length_eq_zero (by omega)
    subst h0
    rfl
  | succ fuel ih =>
    intro l hl
    match l with
    | [] => rfl
    | b :: rest =>
      rw [packbitsAux]
      rw [show unpackAll (byteOfBits ((b :: rest).take 8) :: packbitsAux fuel ((b :: rest).drop 8))
            = byteToBits (byteOfBits ((b :: rest).take 8))
              ++ unpackAll (packbitsAux fuel ((b :: rest).drop 8)) from rfl]
      have h1 : 1 ≤ (b :: rest).length := by simp
      have hdlen : ((b :: rest).drop 8).length = (b :: rest).length - 8 := by
        rw [List.length_drop]
      by_cases hle : (b :: rest).length ≤ 8
      · have hdrop : (b :: rest).drop 8 = [] := List.drop_eq_nil_of_le hle
        have htake : (b :: rest).take 8 = b :: rest := List.take_of_length_le hle
        have hnil : packbitsAux fuel ([] : List Bool) = [] := by
          cases fuel <;> rfl
        rw [hdrop, htake, byteToBits_byteOfBits _ hle, hnil]
        rw [show unpackAll [] = [] from rfl, List.append_nil]
        congr 2
        omega
      · push_neg at hle
        have htlen : ((b :: rest).take 8).length = 8 := by
          rw [List.length_take]; omega
        have hrec := ih ((b :: rest).drop 8) (by simp at hl ⊢; omega)
        rw [hrec, byteToBits_byteOfBits _ (le_of_eq htlen), htlen, hdlen]
        simp only [Nat.sub_self, List.replicate_zero, List.append_nil]
        rw [← List.append_assoc, List.take_append_drop]
        congr 2
        omega

theorem unpackAll_packbits (l : List Bool) :
    unpackAll (packbits_little l) =
      l ++ List.replicate (8 * ((l.length + 7) / 8) - l.length) false :=
  unpackAll_packbitsAux l.length l le_rfl

theorem length_packbits (l : List Bool) :
    (packbits_little l).length = (l.length + 7) / 8 := by
  have h := congrArg List.length (unpackAll_packbits l)
  rw [length_unpackAll] at h
  simp only [List.length_append, List.length_replicate] at h
  omega

/-- Reading bit `k` of a packed row: the original bit when `k` is in
range, `false` in the zero padding. -/
theorem getD_unpackAll_packbits (l : List Bool) (k : ℕ) :
    (unpackAll (packbits_little l)).getD k false = l.getD k false := by
  rw [unpackAll_packbits]
  by_cases hk : k < l.length
  · rw [List.getD_append _ _ _ _ hk]
  · push_neg at hk
    have hrhs : l.getD k false = false := by
      rw [List.getD_eq_getElem?_getD, List.getElem?_eq_none hk]
      rfl
    rw [hrhs, List.getD_eq_getElem?_getD, List.getElem?_append_right hk,
      List.getElem?_replicate]
    split <;> rfl

/-! ## Matrices and the decoder abstraction

`CSCMat` stands for the scipy.sparse.csc_matrix values built by
`dem_to_matrices`: a shape plus an entry function.  Because scipy sums
duplicate triplets into a uint8 matrix, entries are naturals reduced
mod 256 at construction time.  Error estimates, corrections and priors
are plain lists; syndromes are lists of booleans. -/

/-- Shape-carrying matrix model of a scipy sparse matrix. -/
structure CSCMat where
  rows : ℕ
  cols : ℕ
  ent : ℕ → ℕ → ℕ

/-- Failure modes of the numpy calls appearing in the decode paths:
unpackbits with a count exceeding the available bits, an assignment whose
row does not broadcast, and the external solver's syndrome-shape check. -/
inductive NpErr where
  | unpackCount
  | broadcast
  | shapeMismatch
deriving DecidableEq

/-- Numpy row assignment `predictions[i] = x` into a row of width `w`:
succeeds when the lengths agree, broadcasts a single element, and raises
otherwise. -/
def setRow (w : ℕ) (x : List ℕ) : Except NpErr (List ℕ) :=
  if x.length = w then .ok x
  else if x.length = 1 then .ok (List.replicate w (x.getD 0 0))
  else .error .broadcast

/-- Mod-2 matrix-vector product `(M @ e) % 2` from
`ASRMPDecoder.get_logical_correction` (decoder.py line 114). -/
def matVecMod2 (M : CSCMat) (e : List ℕ) : List ℕ :=
  (List.range M.rows).map fun r =>
    (((List.range M.cols).map fun c => M.ent r c * e.getD c 0).sum) % 2

/-- Embedding of `ASRMPDecoder.get_logical_correction` (decoder.py lines
103-114): run the external BP+OSD solver `bpd` on the syndrome and reduce
the estimate through the logical matrix mod 2.  The latency side effect
of the inner `decode` call is modelled separately by the stateful
`ASRMPState.decode` below. -/
def get_logical_correction (L : CSCMat) (bpd : List Bool → List ℕ)
    (s : List Bool) : List ℕ :=
  matVecMod2 L (bpd s)

/-- Modelled from the spec: the shape contract of the external BP+OSD
solver invoked by `ASRMPDecoder.decode` (decoder.py line 99).  The check
itself lives in the external ldpc library, not under src; the spec states
"decode fails with a ShapeMismatch error if the syndrome length disagrees
with the compiled model's detector count". -/
def ASRMPDecoder.decode_checked (num_detectors : ℕ)
    (bpd : List Bool → List ℕ) (s : List Bool) : Except NpErr (List ℕ) :=
  if s.length = num_detectors then .ok (bpd s) else .error .shapeMismatch

/-- Per-shot loop of `TesseractCompiledDecoder.decode_shots_bit_packed`
(decoder.py lines 172-175): each shot is decoded via the single-shot
path and the correction is sliced to `num_obs` entries before being
stored in the predictions row. -/
def tessLoop (num_obs : ℕ) (glc : List Bool → List ℕ) :
    List (List Bool) → Except NpErr (List (List ℕ))
  | [] => .ok []
  | s :: rest => do
    let row ← setRow num_obs ((glc s).take num_obs)
    let rows ← tessLoop num_obs glc rest
    .ok (row :: rows)

/-- Embedding of `TesseractCompiledDecoder.decode_shots_bit_packed`
(decoder.py lines 145-177): unpack each row to `num_det` bits in little
bit order (numpy raises when the count exceeds the bits available,
silently discarding any extra bits otherwise), decode every shot through
`get_logical_correction`, and repack the predictions row-wise. -/
def tesseract_decode_shots_bit_packed (num_det num_obs : ℕ) (L : CSCMat)
    (bpd : List Bool → List ℕ) (data : List (List ℕ)) :
    Except NpErr (List (List ℕ)) :=
  if ∀ row ∈ data, num_det ≤ 8 * row.length then
    Except.map (fun preds => preds.map fun p => packbits_little (p.map (· != 0)))
      (tessLoop num_obs (get_logical_correction L bpd)
        (data.map fun row => (unpackAll row).take num_det))
  else .error .unpackCount

/-- Defect extraction `np.where(syndrome)[0]` from
`UnionFindDecoder.decode` (union_find_decoder.py line 85): the indices of
set syndrome bits, in increasing order. -/
def defectIndices (s : List Bool) : List ℕ :=
  (List.range s.length).filter fun i => s.getD i false

/-- Value computed by `UnionFindDecoder.decode` (union_find_decoder.py
lines 69-99): feed the defects to the external fusion-blossom solver and
read one bit per observable.  The external solver is the abstract
function `solveObs`; latency and the lazily created solver handle are
modelled by `UFState.decode` below. -/
def uf_correction (solveObs : List ℕ → ℕ → Bool) (num_obs : ℕ)
    (s : List Bool) : List ℕ :=
  (List.range num_obs).map fun i => if solveObs (defectIndices s) i then 1 else 0

/-- Per-shot loop of `UnionFindCompiledDecoder.decode_shots_bit_packed`
(union_find_decoder.py lines 152-154): each shot is decoded via the
single-shot path; the row is stored without slicing. -/
def ufLoop (num_obs : ℕ) (dec : List Bool → List ℕ) :
    List (List Bool) → Except NpErr (List (List ℕ))
  | [] => .ok []
  | s :: rest => do
    let row ← setRow num_obs (dec s)
    let rows ← ufLoop num_obs dec rest
    .ok (row :: rows)

/-- Embedding of `UnionFindCompiledDecoder.decode_shots_bit_packed`
(union_find_decoder.py lines 127-156), structured exactly like the
Tesseract batch path but with the union-find single-shot decode. -/
def union_find_decode_shots_bit_packed (num_det num_obs : ℕ)
    (solveObs : List ℕ → ℕ → Bool) (data : List (List ℕ)) :
    Except NpErr (List (List ℕ)) :=
  if ∀ row ∈ data, num_det ≤ 8 * row.length then
    Except.map (fun preds => preds.map fun p => packbits_little (p.map (· != 0)))
      (ufLoop num_obs (uf_correction solveObs num_obs)
        (data.map fun row => (unpackAll row).take num_det))
  else .error .unpackCount

/-! ## Detector error models and the matrix builder (dem_utils.py)

A stim DetectorErrorModel enters `dem_to_matrices` through its
authoritative dimensions and its flattened instruction stream.  An
instruction is either an error mechanism (probability plus a target
list mixing detector ids, observable ids and decomposition separators)
or any other instruction, which the builder's loop skips. -/

/-- One target of a DEM error instruction: `t.is_relative_detector_id()`,
`t.is_logical_observable_id()`, or a `^` separator (neither). -/
inductive DemTarget where
  | detector (v : ℕ)
  | observable (v : ℕ)
  | separator
deriving DecidableEq

/-- One instruction of a flattened DEM. -/
inductive DemInstruction where
  | error (p : ℚ) (targets : List DemTarget)
  | other
deriving DecidableEq

/-- A stim DetectorErrorModel as consumed by `dem_to_matrices`:
`num_detectors` / `num_observables` are the authoritative dimensions and
`flattened` is the instruction stream of `dem.flattened()`. -/
structure DetectorErrorModel where
  num_detectors : ℕ
  num_observables : ℕ
  flattened : List DemInstruction
deriving DecidableEq

/-- Detector indices mentioned by a target list, in order. -/
def detVals (ts : List DemTarget) : List ℕ :=
  ts.filterMap fun t =>
    match t with
    | .detector v => some v
    | _ => none

/-- Observable indices mentioned by a target list, in order. -/
def obsVals (ts : List DemTarget) : List ℕ :=
  ts.filterMap fun t =>
    match t with
    | .observable v => some v
    | _ => none

/-- The error mechanisms of an instruction stream in encounter order,
each with its probability and target list (the pairs the loop in
`dem_to_matrices` visits, dem_utils.py lines 48-60). -/
def mechanisms (l : List DemInstruction) : List (ℚ × List DemTarget) :=
  l.filterMap fun i =>
    match i with
    | .error p ts => some (p, ts)
    | .other => none

/-- The loop of `dem_to_matrices` (dem_utils.py lines 47-60) started at
column `col`: the accumulated H triplets, L triplets and priors.  Each
triplet `(r, c)` records a value-1 entry; `col_idx` advances only on
error instructions. -/
def demScan : List DemInstruction → ℕ → List (ℕ × ℕ) × List (ℕ × ℕ) × List ℚ
  | [], _ => ([], [], [])
  | .error p ts :: rest, col =>
    let acc := demScan rest (col + 1)
    ((detVals ts).map (fun v => (v, col)) ++ acc.1,
     (obsVals ts).map (fun v => (v, col)) ++ acc.2.1,
     p :: acc.2.2)
  | .other :: rest, col => demScan rest col

/-- Embedding of `dem_to_matrices` (dem_utils.py lines 15-76): one pass
over the flattened model accumulating triplets and priors, then the two
uint8 csc matrices.  scipy sums duplicate triplets, so an entry is the
number of matching triplets reduced mod 256.  (scipy would raise on a
row index outside the declared shape; the theorems restrict to models
whose target indices are in range, which stim guarantees.) -/
def dem_to_matrices (dem : DetectorErrorModel) : CSCMat × CSCMat × List ℚ :=
  let acc := demScan dem.flattened 0
  let num_errors := (mechanisms dem.flattened).length
  (⟨dem.num_detectors, num_errors, fun r c => (acc.1.count (r, c)) % 256⟩,
   ⟨dem.num_observables, num_errors, fun r c => (acc.2.1.count (r, c)) % 256⟩,
   acc.2.2)

theorem demScan_priors (l : List DemInstruction) (k : ℕ) :
    (demScan l k).2.2 = (mechanisms l).map Prod.fst := by
  induction l generalizing k with
  | nil => rfl
  | cons i rest ih =>
    cases i with
    | error p ts => simp [demScan, mechanisms, List.filterMap_cons, ih]
    | other => simp [demScan, mechanisms, List.filterMap_cons, ih]

theorem count_map_pair (xs : List ℕ) (c0 r c : ℕ) :
    ((xs.map fun v => (v, c0)).count (r, c)) = if c = c0 then xs.count r else 0 := by
  induction xs with
  | nil => simp
  | cons x t ih =>
    simp only [List.map_cons, List.count_cons, ih, Prod.mk.injEq]
    by_cases hc : c = c0 <;> by_cases hr : r = x <;> simp [hc, hr] <;> omega

theorem mem_detVals (ts : List DemTarget) (r : ℕ) :
    r ∈ detVals ts ↔ DemTarget.detector r ∈ ts := by
  simp only [detVals, List.mem_filterMap]
  constructor
  · rintro ⟨t, ht, heq⟩
    cases t <;> simp_all
  · intro h
    exact ⟨.detector r, h, rfl⟩

theorem mem_obsVals (ts : List DemTarget) (r : ℕ) :
    r ∈ obsVals ts ↔ DemTarget.observable r ∈ ts := by
  simp only [obsVals, List.mem_filterMap]
  constructor
  · rintro ⟨t, ht, heq⟩
    cases t <;> simp_all
  · intro h
    exact ⟨.observable r, h, rfl⟩

/-- Triplet count for the H accumulator: column `c` collects exactly the
detector mentions of mechanism `c - k` (in encounter order), columns
before the start hold nothing. -/
theorem demScan_count_H (l : List DemInstruction) (k r c : ℕ) :
    ((demScan l k).1.count (r, c)) =
      if k ≤ c then (detVals (((mechanisms l).getD (c - k) (0, [])).2)).count r
      else 0 := by
  induction l generalizing k with
  | nil =>
    simp only [demScan, mechanisms, List.filterMap_nil, List.getD_nil, detVals,
      List.count_nil]
    split <;> rfl
  | cons i rest ih =>
    cases i with
    | error p ts =>
      show ((detVals ts).map (fun v => (v, k)) ++ (demScan rest (k + 1)).1).count (r, c) = _
      rw [List.count_append, count_map_pair, ih (k + 1)]
      have hmech : mechanisms (.error p ts :: rest) = (p, ts) :: mechanisms rest := by
        simp [mechanisms, List.filterMap_cons]
      rw [hmech]
      rcases lt_trichotomy c k with hck | hck | hck
      · rw [if_neg (by omega), if_neg (by omega), if_neg (by omega)]
      · subst hck
        rw [if_pos rfl, if_neg (by omega), if_pos le_rfl, Nat.sub_self,
          List.getD_cons_zero]
        simp
      · rw [if_neg (by omega), if_pos (by omega), if_pos (by omega)]
        have hsub : c - k = (c - (k + 1)) + 1 := by omega
        rw [hsub, List.getD_cons_succ, Nat.zero_add]
    | other =>
      show ((demScan rest k).1.count (r, c)) = _
      rw [ih k]
      have hmech : mechanisms (.other :: rest) = mechanisms rest := by
        simp [mechanisms, List.filterMap_cons]
      rw [hmech]

/-- Triplet count for the L accumulator, mirroring `demScan_count_H`. -/
theorem demScan_count_L (l : List DemInstruction) (k r c : ℕ) :
    ((demScan l k).2.1.count (r, c)) =
      if k ≤ c then (obsVals (((mechanisms l).getD (c - k) (0, [])).2)).count r
      else 0 := by
  induction l generalizing k with
  | nil =>
    simp only [demScan, mechanisms, List.filterMap_nil, List.getD_nil, obsVals,
      List.count_nil]
    split <;> rfl
  | cons i rest ih =>
    cases i with
    | error p ts =>
      show ((obsVals ts).map (fun v => (v, k)) ++ (demScan rest (k + 1)).2.1).count (r, c) = _
      rw [List.count_append, count_map_pair, ih (k + 1)]
      have hmech : mechanisms (.error p ts :: rest) = (p, ts) :: mechanisms rest := by
        simp [mechanisms, List.filterMap_cons]
      rw [hmech]
      rcases lt_trichotomy c k with hck | hck | hck
      · rw [if_neg (by omega), if_neg (by omega), if_neg (by omega)]
      · subst hck
        rw [if_pos rfl, if_neg (by omega), if_pos le_rfl, Nat.sub_self,
          List.getD_cons_zero]
        simp
      · rw [if_neg (by omega), if_pos (by omega), if_pos (by omega)]
        have hsub : c - k = (c - (k + 1)) + 1 := by omega
        rw [hsub, List.getD_cons_succ, Nat.zero_add]
    | other =>
      show ((demScan rest k).2.1.count (r, c)) = _
      rw [ih k]
      have hmech : mechanisms (.other :: rest) = mechanisms rest := by
        simp [mechanisms, List.filterMap_cons]
      rw [hmech]

theorem demScan_of_no_mech (l : List DemInstruction) (k : ℕ)
    (h : mechanisms l = []) : demScan l k = ([], [], []) := by
  induction l generalizing k with
  | nil => rfl
  | cons i rest ih =>
    cases i with
    | error p ts =>
      exfalso
      simp [mechanisms, List.filterMap_cons] at h
    | other =>
      show demScan rest k = ([], [], [])
      exact ih k (by simpa [mechanisms, List.filterMap_cons] using h)

theorem count_mod_char (vals : List DemTarget → List ℕ)
    (hnil : vals [] = [])
    (mechs : List (ℚ × List DemTarget))
    (hN : ∀ m ∈ mechs, (vals m.2).Nodup) (r c : ℕ) :
    ((vals ((mechs.getD c (0, [])).2)).count r % 256 = 0 ∨
      (vals ((mechs.getD c (0, [])).2)).count r % 256 = 1) ∧
    ((vals ((mechs.getD c (0, [])).2)).count r % 256 = 1 ↔
      r ∈ vals ((mechs.getD c (0, [])).2)) := by
  set cnt := (vals ((mechs.getD c (0, [])).2)).count r with hcnt
  have hb : cnt ≤ 1 := by
    by_cases hc : c < mechs.length
    · have hmem : mechs.getD c (0, []) ∈ mechs := by
        rw [List.getD_eq_getElem _ _ hc]
        exact List.getElem_mem _
      exact List.nodup_iff_count_le_one.mp (hN _ hmem) r
    · push_neg at hc
      have hdef : mechs.getD c (0, []) = (0, []) := List.getD_eq_default _ _ hc
      rw [hcnt, hdef, hnil]
      simp
  have hmod : cnt % 256 = cnt := Nat.mod_eq_of_lt (by omega)
  refine ⟨by omega, ?_⟩
  rw [hmod]
  constructor
  · intro h1
    by_contra hmem
    rw [hcnt, List.count_eq_zero_of_not_mem hmem] at h1
    exact absurd h1 (by omega)
  · intro hmem
    have h0 : cnt ≠ 0 := by
      intro h0
      rw [hcnt, List.count_eq_zero] at h0
      exact h0 hmem
    omega

/-- C3: `dem_to_matrices` returns H of shape (num_detectors, num_errors),
L of shape (num_observables, num_errors), and a priors vector of length
num_errors index-aligned with their columns (column order is encounter
order of the flattened model); every entry of H and L is 0 or 1, and
entry (r, c) of H is 1 iff mechanism c flips detector r, likewise for L
with observables.  The hypotheses restrict to models whose mechanisms
mention each detector and observable at most once and with indices inside
the declared dimensions, as stim's flattened models do (and as the data
model requires: a mechanism carries a *set* of flipped indices). -/
theorem dem_to_matrices_spec (dem : DetectorErrorModel)
    (hD : ∀ m ∈ mechanisms dem.flattened, (detVals m.2).Nodup)
    (hO : ∀ m ∈ mechanisms dem.flattened, (obsVals m.2).Nodup)
    (hDv : ∀ m ∈ mechanisms dem.flattened, ∀ v ∈ detVals m.2, v < dem.num_detectors)
    (hOv : ∀ m ∈ mechanisms dem.flattened, ∀ v ∈ obsVals m.2, v < dem.num_observables) :
    (dem_to_matrices dem).1.rows = dem.num_detectors ∧
    (dem_to_matrices dem).1.cols = (mechanisms dem.flattened).length ∧
    (dem_to_matrices dem).2.1.rows = dem.num_observables ∧
    (dem_to_matrices dem).2.1.cols = (mechanisms dem.flattened).length ∧
    (dem_to_matrices dem).2.2 = (mechanisms dem.flattened).map Prod.fst ∧
    (dem_to_matrices dem).2.2.length = (mechanisms dem.flattened).length ∧
    (∀ r c, (dem_to_matrices dem).1.ent r c = 0 ∨ (dem_to_matrices dem).1.ent r c = 1) ∧
    (∀ r c, (dem_to_matrices dem).1.ent r c = 1 ↔
      DemTarget.detector r ∈ ((mechanisms dem.flattened).getD c (0, [])).2) ∧
    (∀ r c, (dem_to_matrices dem).2.1.ent r c = 0 ∨ (dem_to_matrices dem).2.1.ent r c = 1) ∧
    (∀ r c, (dem_to_matrices dem).2.1.ent r c = 1 ↔
      DemTarget.observable r ∈ ((mechanisms dem.flattened).getD c (0, [])).2) := by
  have hpri : (dem_to_matrices dem).2.2 = (mechanisms dem.flattened).map Prod.fst :=
    demScan_priors dem.flattened 0
  have hkeyH : ∀ r c, (dem_to_matrices dem).1.ent r c =
      (detVals (((mechanisms dem.flattened).getD c (0, [])).2)).count r % 256 := by
    intro r c
    show ((demScan dem.flattened 0).1.count (r, c)) % 256 = _
    rw [demScan_count_H]
    simp
  have hkeyL : ∀ r c, (dem_to_matrices dem).2.1.ent r c =
      (obsVals (((mechanisms dem.flattened).getD c (0, [])).2)).count r % 256 := by
    intro r c
    show ((demScan dem.flattened 0).2.1.count (r, c)) % 256 = _
    rw [demScan_count_L]
    simp
  refine ⟨rfl, rfl, rfl, rfl, hpri, by rw [hpri]; simp, ?_, ?_, ?_, ?_⟩
  · intro r c
    rw [hkeyH r c]
    exact (count_mod_char detVals rfl _ hD r c).1
  · intro r c
    rw [hkeyH r c, ← mem_detVals]
    exact (count_mod_char detVals rfl _ hD r c).2
  · intro r c
    rw [hkeyL r c]
    exact (count_mod_char obsVals rfl _ hO r c).1
  · intro r c
    rw [hkeyL r c, ← mem_obsVals]
    exact (count_mod_char obsVals rfl _ hO r c).2

/-- Witness for C3 on a concrete two-detector, one-observable model with
two mechanisms and a skipped non-error instruction. -/
theorem dem_to_matrices_spec_witness :
    (∀ m ∈ mechanisms [DemInstruction.error (1/2) [.detector 0, .observable 0],
        DemInstruction.other,
        DemInstruction.error (1/3) [.detector 1, .separator, .detector 0]],
      (detVals m.2).Nodup) ∧
    ((dem_to_matrices ⟨2, 1, [DemInstruction.error (1/2) [.detector 0, .observable 0],
        DemInstruction.other,
        DemInstruction.error (1/3) [.detector 1, .separator, .detector 0]]⟩).1.rows = 2 ∧
      (dem_to_matrices ⟨2, 1, [DemInstruction.error (1/2) [.detector 0, .observable 0],
        DemInstruction.other,
        DemInstruction.error (1/3) [.detector 1, .separator, .detector 0]]⟩).1.cols = 2) := by
  constructor
  · decide
  · have h := dem_to_matrices_spec
      ⟨2, 1, [DemInstruction.error (1/2) [.detector 0, .observable 0],
        DemInstruction.other,
        DemInstruction.error (1/3) [.detector 1, .separator, .detector 0]]⟩
      (by decide) (by decide) (by decide) (by decide)
    exact ⟨h.1, by rw [h.2.1]; decide⟩

/-- C8: for an error model containing zero error mechanisms the matrix
builder does not fail and returns H of shape (num_detectors, 0), L of
shape (num_observables, 0) and an empty priors vector; every entry
function is identically zero.  (The embedding is total, matching the
Python path, which builds both csc matrices from empty triplet lists
without error.) -/
theorem dem_to_matrices_empty (dem : DetectorErrorModel)
    (h : mechanisms dem.flattened = []) :
    (dem_to_matrices dem).1.rows = dem.num_detectors ∧
    (dem_to_matrices dem).1.cols = 0 ∧
    (dem_to_matrices dem).2.1.rows = dem.num_observables ∧
    (dem_to_matrices dem).2.1.cols = 0 ∧
    (dem_to_matrices dem).2.2 = [] ∧
    (∀ r c, (dem_to_matrices dem).1.ent r c = 0) ∧
    (∀ r c, (dem_to_matrices dem).2.1.ent r c = 0) := by
  have hscan := demScan_of_no_mech dem.flattened 0 h
  refine ⟨rfl, by rw [show (dem_to_matrices dem).1.cols = (mechanisms dem.flattened).length from rfl, h]; rfl,
    rfl, by rw [show (dem_to_matrices dem).2.1.cols = (mechanisms dem.flattened).length from rfl, h]; rfl,
    ?_, ?_, ?_⟩
  · show (demScan dem.flattened 0).2.2 = []
    rw [hscan]
  · intro r c
    show ((demScan dem.flattened 0).1.count (r, c)) % 256 = 0
    rw [hscan]
    rfl
  · intro r c
    show ((demScan dem.flattened 0).2.1.count (r, c)) % 256 = 0
    rw [hscan]
    rfl

/-- Witness for C8 on a concrete model whose stream holds only a
non-error instruction. -/
theorem dem_to_matrices_empty_witness :
    mechanisms [DemInstruction.other] = [] ∧
    ((dem_to_matrices ⟨3, 2, [DemInstruction.other]⟩).1.cols = 0 ∧
      (dem_to_matrices ⟨3, 2, [DemInstruction.other]⟩).2.2 = []) := by
  refine ⟨by decide, ?_⟩
  have h := dem_to_matrices_empty ⟨3, 2, [DemInstruction.other]⟩ (by decide)
  exact ⟨h.2.1, h.2.2.2.2.1⟩

/-! ## Batched decoding: C2, C1, C7 -/

theorem length_matVecMod2 (M : CSCMat) (e : List ℕ) :
    (matVecMod2 M e).length = M.rows := by
  simp [matVecMod2]

theorem length_get_logical_correction (L : CSCMat) (bpd : List Bool → List ℕ)
    (s : List Bool) : (get_logical_correction L bpd s).length = L.rows :=
  length_matVecMod2 L (bpd s)

theorem length_uf_correction (solveObs : List ℕ → ℕ → Bool) (num_obs : ℕ)
    (s : List Bool) : (uf_correction solveObs num_obs s).length = num_obs := by
  simp [uf_correction]

theorem tessLoop_ok (num_obs : ℕ) (glc : List Bool → List ℕ)
    (h : ∀ s, (glc s).length = num_obs) (shots : List (List Bool)) :
    tessLoop num_obs glc shots = .ok (shots.map glc) := by
  induction shots with
  | nil => rfl
  | cons s rest ih =>
    have htake : (glc s).take num_obs = glc s := by
      rw [← h s]
      exact List.take_length _
    rw [tessLoop, htake]
    rw [show setRow num_obs (glc s) = .ok (glc s) from by rw [setRow, if_pos (h s)]]
    rw [ih]
    rfl

theorem ufLoop_ok (num_obs : ℕ) (dec : List Bool → List ℕ)
    (h : ∀ s, (dec s).length = num_obs) (shots : List (List Bool)) :
    ufLoop num_obs dec shots = .ok (shots.map dec) := by
  induction shots with
  | nil => rfl
  | cons s rest ih =>
    rw [ufLoop]
    rw [show setRow num_obs (dec s) = .ok (dec s) from by rw [setRow, if_pos (h s)]]
    rw [ih]
    rfl

theorem getD_map_of_lt {α β : Type} (f : α → β) (l : List α) (i : ℕ)
    (d : β) (d' : α) (h : i < l.length) :
    (l.map f).getD i d = f (l.getD i d') := by
  rw [List.getD_eq_getElem _ _ (by simpa using h), List.getD_eq_getElem _ _ h,
    List.getElem_map]

theorem getD_all_zero (e : List ℕ) (h : ∀ x ∈ e, x = 0) (c : ℕ) :
    e.getD c 0 = 0 := by
  by_cases hc : c < e.length
  · rw [List.getD_eq_getElem _ _ hc]
    exact h _ (List.getElem_mem hc)
  · push_neg at hc
    exact List.getD_eq_default _ _ hc

/-- Packed output rows read back as the correction bits followed by
zeros: the unused high bits of the final byte are zero on write. -/
theorem packbits_hi_bits (p : List ℕ) (num_obs : ℕ) (hp : p.length = num_obs)
    (k : ℕ) (hk : num_obs ≤ k) :
    (unpackAll (packbits_little (p.map (· != 0)))).getD k false = false := by
  rw [getD_unpackAll_packbits]
  rw [List.getD_eq_getElem?_getD, List.getElem?_eq_none (by simp [hp]; omega)]
  rfl

theorem tesseract_batch_eq (num_det num_obs : ℕ) (L : CSCMat)
    (bpd : List Bool → List ℕ) (data : List (List ℕ))
    (hck : ∀ row ∈ data, num_det ≤ 8 * row.length)
    (hL : L.rows = num_obs) :
    tesseract_decode_shots_bit_packed num_det num_obs L bpd data =
      .ok (data.map fun row => packbits_little
        ((get_logical_correction L bpd ((unpackAll row).take num_det)).map (· != 0))) := by
  have hf : ∀ s, (get_logical_correction L bpd s).length = num_obs := fun s => by
    rw [length_get_logical_correction, hL]
  rw [tesseract_decode_shots_bit_packed, if_pos hck, tessLoop_ok num_obs _ hf]
  show Except.ok _ = _
  simp only [List.map_map]
  rfl

theorem union_find_batch_eq (num_det num_obs : ℕ)
    (solveObs : List ℕ → ℕ → Bool) (data : List (List ℕ))
    (hck : ∀ row ∈ data, num_det ≤ 8 * row.length) :
    union_find_decode_shots_bit_packed num_det num_obs solveObs data =
      .ok (data.map fun row => packbits_little
        ((uf_correction solveObs num_obs ((unpackAll row).take num_det)).map (· != 0))) := by
  have hf : ∀ s, (uf_correction solveObs num_obs s).length = num_obs :=
    length_uf_correction solveObs num_obs
  rw [union_find_decode_shots_bit_packed, if_pos hck, ufLoop_ok num_obs _ hf]
  show Except.ok _ = _
  simp only [List.map_map]
  rfl

theorem mapped_batch_props (num_obs : ℕ) (g : List Bool → List ℕ)
    (hg : ∀ s, (g s).length = num_obs) (num_det : ℕ) (data : List (List ℕ)) :
    (data.map fun row => packbits_little
        ((g ((unpackAll row).take num_det)).map (· != 0))).length = data.length ∧
    (∀ r ∈ data.map fun row => packbits_little
        ((g ((unpackAll row).take num_det)).map (· != 0)),
      r.length = (num_obs + 7) / 8) ∧
    (∀ i, i < data.length →
      (data.map fun row => packbits_little
        ((g ((unpackAll row).take num_det)).map (· != 0))).getD i [] =
        packbits_little ((g ((unpackAll (data.getD i [])).take num_det)).map (· != 0))) ∧
    (∀ i k, num_obs ≤ k →
      (unpackAll ((data.map fun row => packbits_little
        ((g ((unpackAll row).take num_det)).map (· != 0))).getD i [])).getD k false
          = false) := by
  refine ⟨List.length_map _ _, ?_, ?_, ?_⟩
  · intro r hr
    rcases List.mem_map.mp hr with ⟨row, hrow, rfl⟩
    rw [length_packbits, List.length_map, hg]
  · intro i hi
    exact getD_map_of_lt _ data i [] [] hi
  · intro i k hk
    by_cases hi : i < data.length
    · rw [getD_map_of_lt _ data i [] [] hi]
      exact packbits_hi_bits _ num_obs (hg _) k hk
    · push_neg at hi
      have hnil : (data.map fun row => packbits_little
          ((g ((unpackAll row).take num_det)).map (· != 0))).getD i [] = [] :=
        List.getD_eq_default _ _ (by simpa using hi)
      rw [hnil]
      rfl

/-- C2: for both compiled decoders (Tesseract/ASR-MP and union-find),
`decode_shots_bit_packed` on `n` rows of the contract width
ceil(num_detectors/8) succeeds and returns exactly `n` rows of
ceil(num_observables/8) bytes; output row `i` is the bit-packed logical
correction of input row `i` computed by that decoder's single-shot path
(shots in order, decoded independently), packed least-significant-bit
first with the unused high bits of the final byte zero on write. -/
theorem decode_shots_bit_packed_spec (num_det num_obs : ℕ) (L : CSCMat)
    (bpd : List Bool → List ℕ) (solveObs : List ℕ → ℕ → Bool)
    (data : List (List ℕ))
    (hw : ∀ row ∈ data, row.length = (num_det + 7) / 8)
    (hL : L.rows = num_obs) :
    (∃ out, tesseract_decode_shots_bit_packed num_det num_obs L bpd data = .ok out ∧
      out.length = data.length ∧
      (∀ r ∈ out, r.length = (num_obs + 7) / 8) ∧
      (∀ i, i < data.length → out.getD i [] = packbits_little
        ((get_logical_correction L bpd
          ((unpackAll (data.getD i [])).take num_det)).map (· != 0))) ∧
      (∀ i k, num_obs ≤ k → (unpackAll (out.getD i [])).getD k false = false)) ∧
    (∃ out, union_find_decode_shots_bit_packed num_det num_obs solveObs data = .ok out ∧
      out.length = data.length ∧
      (∀ r ∈ out, r.length = (num_obs + 7) / 8) ∧
      (∀ i, i < data.length → out.getD i [] = packbits_little
        ((uf_correction solveObs num_obs
          ((unpackAll (data.getD i [])).take num_det)).map (· != 0))) ∧
      (∀ i k, num_obs ≤ k → (unpackAll (out.getD i [])).getD k false = false)) := by
  have hck : ∀ row ∈ data, num_det ≤ 8 * row.length := by
    intro row hrow
    rw [hw row hrow]
    omega
  constructor
  · refine ⟨_, tesseract_batch_eq num_det num_obs L bpd data hck hL, ?_⟩
    exact mapped_batch_props num_obs _ (fun s => by
      rw [length_get_logical_correction, hL]) num_det data
  · refine ⟨_, union_find_batch_eq num_det num_obs solveObs data hck, ?_⟩
    exact mapped_batch_props num_obs _ (length_uf_correction solveObs num_obs) num_det data

/-- Witness for C2 on a concrete two-detector, one-observable decoder and
a two-shot batch. -/
theorem decode_shots_bit_packed_spec_witness :
    (∀ row ∈ ([[3], [0]] : List (List ℕ)), row.length = (2 + 7) / 8) ∧
    ((∃ out, tesseract_decode_shots_bit_packed 2 1 ⟨1, 1, fun _ _ => 1⟩
        (fun s => [if s.getD 0 false then 1 else 0]) [[3], [0]] = .ok out ∧
      out.length = ([[3], [0]] : List (List ℕ)).length ∧
      (∀ r ∈ out, r.length = (1 + 7) / 8) ∧
      (∀ i, i < ([[3], [0]] : List (List ℕ)).length → out.getD i [] = packbits_little
        ((get_logical_correction ⟨1, 1, fun _ _ => 1⟩
          (fun s => [if s.getD 0 false then 1 else 0])
          ((unpackAll (([[3], [0]] : List (List ℕ)).getD i [])).take 2)).map (· != 0))) ∧
      (∀ i k, 1 ≤ k → (unpackAll (out.getD i [])).getD k false = false)) ∧
    (∃ out, union_find_decode_shots_bit_packed 2 1 (fun dfs _ => dfs.length == 1)
        [[3], [0]] = .ok out ∧
      out.length = ([[3], [0]] : List (List ℕ)).length ∧
      (∀ r ∈ out, r.length = (1 + 7) / 8) ∧
      (∀ i, i < ([[3], [0]] : List (List ℕ)).length → out.getD i [] = packbits_little
        ((uf_correction (fun dfs _ => dfs.length == 1) 1
          ((unpackAll (([[3], [0]] : List (List ℕ)).getD i [])).take 2)).map (· != 0))) ∧
      (∀ i k, 1 ≤ k → (unpackAll (out.getD i [])).getD k false = false))) :=
  ⟨by decide, decode_shots_bit_packed_spec 2 1 ⟨1, 1, fun _ _ => 1⟩
    (fun s => [if s.getD 0 false then 1 else 0]) (fun dfs _ => dfs.length == 1)
    [[3], [0]] (by decide) (by decide)⟩

theorem take_unpack_take (row : List ℕ) (c num_det : ℕ) (h : num_det ≤ 8 * c) :
    (unpackAll (row.take c)).take num_det = (unpackAll row).take num_det := by
  by_cases hlc : row.length ≤ c
  · rw [List.take_of_length_le hlc]
  · push_neg at hlc
    conv_rhs => rw [← List.take_append_drop c row]
    rw [unpackAll_append, List.take_append_of_le_length]
    rw [length_unpackAll, List.length_take, min_eq_left hlc.le]
    omega

/-- C1 (amended): single-shot decode surfaces a ShapeMismatch error
exactly when the syndrome length disagrees with the compiled model's
detector count (solver contract modelled from the spec); but the batched
path does not surface row-width mismatches with extra bytes: any batch
whose rows are at least the contract width decodes exactly as the batch
truncated to ceil(num_detectors/8) bytes per row, the excess being
silently discarded. -/
theorem decode_shape_mismatch_spec :
    (∀ (num_det : ℕ) (bpd : List Bool → List ℕ) (s : List Bool),
      (s.length ≠ num_det →
        ASRMPDecoder.decode_checked num_det bpd s = .error .shapeMismatch) ∧
      (s.length = num_det →
        ASRMPDecoder.decode_checked num_det bpd s = .ok (bpd s))) ∧
    (∀ (num_det num_obs : ℕ) (L : CSCMat) (bpd : List Bool → List ℕ)
        (data : List (List ℕ)),
      (∀ row ∈ data, (num_det + 7) / 8 ≤ row.length) →
      tesseract_decode_shots_bit_packed num_det num_obs L bpd data =
        tesseract_decode_shots_bit_packed num_det num_obs L bpd
          (data.map fun row => row.take ((num_det + 7) / 8))) := by
  constructor
  · intro num_det bpd s
    constructor
    · intro hne
      rw [ASRMPDecoder.decode_checked, if_neg hne]
    · intro heq
      rw [ASRMPDecoder.decode_checked, if_pos heq]
  · intro num_det num_obs L bpd data h
    have hck1 : ∀ row ∈ data, num_det ≤ 8 * row.length := by
      intro row hrow
      have := h row hrow
      omega
    have hck2 : ∀ row ∈ data.map (fun row => row.take ((num_det + 7) / 8)),
        num_det ≤ 8 * row.length := by
      intro row hrow
      rcases List.mem_map.mp hrow with ⟨r, hr, rfl⟩
      rw [List.length_take, min_eq_left (h r hr)]
      omega
    rw [tesseract_decode_shots_bit_packed, tesseract_decode_shots_bit_packed,
      if_pos hck1, if_pos hck2]
    have hshots : (data.map fun row => row.take ((num_det + 7) / 8)).map
        (fun row => (unpackAll row).take num_det) =
        data.map (fun row => (unpackAll row).take num_det) := by
      rw [List.map_map]
      apply List.map_congr_left
      intro row hrow
      exact take_unpack_take row _ num_det (by omega)
    rw [hshots]

/-- Witness for C1's amended statement: a wrong-length syndrome is
rejected, and a batch with one extra byte per row decodes as the
truncated batch. -/
theorem decode_shape_mismatch_spec_witness :
    (([true] : List Bool).length ≠ 2 ∧
      ASRMPDecoder.decode_checked 2 (fun _ => [0]) [true] = .error .shapeMismatch) ∧
    ((∀ row ∈ ([[1, 255]] : List (List ℕ)), (2 + 7) / 8 ≤ row.length) ∧
      tesseract_decode_shots_bit_packed 2 1 ⟨1, 1, fun _ _ => 1⟩ (fun _ => [0]) [[1, 255]] =
        tesseract_decode_shots_bit_packed 2 1 ⟨1, 1, fun _ _ => 1⟩ (fun _ => [0])
          (([[1, 255]] : List (List ℕ)).map fun row => row.take ((2 + 7) / 8))) :=
  ⟨⟨by decide, (decode_shape_mismatch_spec.1 2 (fun _ => [0]) [true]).1 (by decide)⟩,
   ⟨by decide, decode_shape_mismatch_spec.2 2 1 ⟨1, 1, fun _ _ => 1⟩ (fun _ => [0])
      [[1, 255]] (by decide)⟩⟩

/-- C1 counterexample: the compiled model has 2 detectors, so the batch
row contract width is 1 byte, yet a 2-byte row is accepted without any
error and decodes exactly as the 1-byte truncation — a batch row width
mismatch handled by silently truncating the data, contradicting the
claim that no shape/contract mismatch is ever handled that way. -/
theorem decode_shape_mismatch_counterexample :
    ([1, 255] : List ℕ).length ≠ (2 + 7) / 8 ∧
    tesseract_decode_shots_bit_packed 2 1 ⟨1, 1, fun _ _ => 1⟩ (fun _ => [0]) [[1, 255]]
      = .ok [[0]] ∧
    tesseract_decode_shots_bit_packed 2 1 ⟨1, 1, fun _ _ => 1⟩ (fun _ => [0]) [[1, 255]]
      = tesseract_decode_shots_bit_packed 2 1 ⟨1, 1, fun _ _ => 1⟩ (fun _ => [0]) [[1]] := by
  refine ⟨by decide, by decide, by decide⟩

/-- C7: `get_logical_correction` returns `(L @ decode(s)) % 2`, a binary
vector of length num_observables (for the L matrix compiled by
`dem_to_matrices`), and a decode returning the all-zero estimate yields
the all-zero logical correction. -/
theorem get_logical_correction_spec (dem : DetectorErrorModel)
    (bpd : List Bool → List ℕ) (s : List Bool)
    (hlen : (bpd s).length = (dem_to_matrices dem).2.1.cols) :
    get_logical_correction (dem_to_matrices dem).2.1 bpd s
        = matVecMod2 (dem_to_matrices dem).2.1 (bpd s) ∧
    (get_logical_correction (dem_to_matrices dem).2.1 bpd s).length
        = dem.num_observables ∧
    (∀ x ∈ get_logical_correction (dem_to_matrices dem).2.1 bpd s, x = 0 ∨ x = 1) ∧
    ((∀ x ∈ bpd s, x = 0) →
      get_logical_correction (dem_to_matrices dem).2.1 bpd s
        = List.replicate dem.num_observables 0) := by
  refine ⟨rfl, length_get_logical_correction _ _ _, ?_, ?_⟩
  · intro x hx
    rcases List.mem_map.mp hx with ⟨r, hr, rfl⟩
    omega
  · intro hzero
    rw [List.eq_replicate_iff]
    refine ⟨length_get_logical_correction _ _ _, ?_⟩
    intro x hx
    rcases List.mem_map.mp hx with ⟨r, hr, rfl⟩
    have hterm : ((List.range (dem_to_matrices dem).2.1.cols).map
        fun c => (dem_to_matrices dem).2.1.ent r c * (bpd s).getD c 0) =
        (List.range (dem_to_matrices dem).2.1.cols).map fun _ => 0 := by
      apply List.map_congr_left
      intro c hc
      rw [getD_all_zero (bpd s) hzero c, Nat.mul_zero]
    show (((List.range (dem_to_matrices dem).2.1.cols).map
        fun c => (dem_to_matrices dem).2.1.ent r c * (bpd s).getD c 0).sum) % 2 = 0
    rw [hterm]
    simp

/-- Witness for C7 on a concrete one-detector, one-observable model with
an all-zero external estimate. -/
theorem get_logical_correction_spec_witness :
    ((fun _ => [0] : List Bool → List ℕ) [true]).length =
      (dem_to_matrices ⟨1, 1, [.error (1/2) [.detector 0, .observable 0]]⟩).2.1.cols ∧
    get_logical_correction
      (dem_to_matrices ⟨1, 1, [.error (1/2) [.detector 0, .observable 0]]⟩).2.1
      (fun _ => [0]) [true] = List.replicate 1 0 :=
  ⟨by decide,
    (get_logical_correction_spec ⟨1, 1, [.error (1/2) [.detector 0, .observable 0]]⟩
      (fun _ => [0]) [true] (by decide)).2.2.2 (by decide)⟩

/-! ## Noise synthesis (noise_models.py)

The base circuit comes from the external facility
`stim.Circuit.generated(...).flattened()` and is a parameter of the
embedding.  The float routine `np.sin` and the constant `np.pi` are
abstracted as the parameters `s` and `pi`; probabilities are exact
rationals. -/

/-- A stim circuit target as used here: a plain qubit index or a Pauli-Z
target (`stim.target_z`). -/
inductive StimTarget where
  | qubit (q : ℕ)
  | z (q : ℕ)
  | other
deriving DecidableEq

/-- A flattened stim circuit instruction: name, targets and optional
probability argument. -/
structure CInstr where
  name : String
  targets : List StimTarget
  arg : Option ℚ
deriving DecidableEq

/-- The rounds default of `generate_stress_circuit` (noise_models.py
lines 44-45): `3 * d` when unspecified. -/
def resolve_rounds (d : ℕ) (rounds : Option ℕ) : ℕ := rounds.getD (d * 3)

/-- The time-varying probability of noise_models.py lines 73-74:
`base_p * (1 + drift_strength * sin(2 * pi * round / period))`, with the
sine routine and pi abstracted. -/
def p_now (s : ℚ → ℚ) (pi base_p drift period : ℚ) (round : ℕ) : ℚ :=
  base_p * (1 + drift * s (2 * pi * round / period))

/-- The circuit-surgery loop of `generate_stress_circuit`
(noise_models.py lines 62-88): walk the flattened instructions keeping a
round counter that increments on TICK; re-emit each instruction and
append class-dependent noise at the current drifted probability;
anything outside the handled classes passes through unchanged. -/
def stressWalk (s : ℚ → ℚ) (pi base_p drift period : ℚ) :
    ℕ → List CInstr → List CInstr
  | _, [] => []
  | round, i :: rest =>
    if i.name = "TICK" then
      ⟨"TICK", [], none⟩ :: stressWalk s pi base_p drift period (round + 1) rest
    else if i.name ∈ (["R", "M", "MR"] : List String) then
      ⟨i.name, i.targets, none⟩ ::
        ⟨"X_ERROR", i.targets, some (p_now s pi base_p drift period round)⟩ ::
        stressWalk s pi base_p drift period round rest
    else if i.name ∈ (["CX", "CZ", "H", "S", "X", "Z", "Y"] : List String) then
      ⟨i.name, i.targets, none⟩ ::
        (if i.name ∈ (["CX", "CZ"] : List String) then
          ⟨"DEPOLARIZE2", i.targets, some (p_now s pi base_p drift period round)⟩
        else
          ⟨"DEPOLARIZE1", i.targets, some (p_now s pi base_p drift period round)⟩) ::
        stressWalk s pi base_p drift period round rest
    else
      i :: stressWalk s pi base_p drift period round rest

/-- Number of round-boundary markers in an instruction list. -/
def tickCount (l : List CInstr) : ℕ := l.countP fun i => i.name == "TICK"

/-- Embedding of `generate_stress_circuit` (noise_models.py lines
15-98) applied to the externally generated noiseless base circuit:
period is `rounds / 2`, the walk starts at round 0, and a positive
`burst_prob` prepends one CORRELATED_ERROR over the `d` Z targets
`d*d/2 .. d*d/2 + d - 1` (the code's window at the middle of the
data-qubit index range). -/
def generate_stress_circuit (s : ℚ → ℚ) (pi : ℚ) (d : ℕ)
    (base_p drift_strength burst_prob : ℚ) (rounds : Option ℕ)
    (base : List CInstr) : List CInstr :=
  let r := resolve_rounds d rounds
  let walked := stressWalk s pi base_p drift_strength ((r : ℚ) / 2) 0 base
  if burst_prob > 0 then
    ⟨"CORRELATED_ERROR", (List.range' (d * d / 2) d).map .z, some burst_prob⟩ :: walked
  else
    walked

theorem tickCount_nil : tickCount [] = 0 := rfl

theorem tickCount_cons (i : CInstr) (l : List CInstr) :
    tickCount (i :: l) = (if i.name = "TICK" then 1 else 0) + tickCount l := by
  simp only [tickCount, List.countP_cons]
  by_cases h : i.name = "TICK" <;> simp [h] <;> omega

/-- The walk over a concatenation: the suffix is walked with the round
counter advanced by the number of TICK markers of the prefix. -/
theorem stressWalk_append (s : ℚ → ℚ) (pi base_p drift period : ℚ)
    (l1 l2 : List CInstr) : ∀ r : ℕ,
    stressWalk s pi base_p drift period r (l1 ++ l2) =
      stressWalk s pi base_p drift period r l1 ++
        stressWalk s pi base_p drift period (r + tickCount l1) l2 := by
  induction l1 with
  | nil => intro r; simp [stressWalk, tickCount]
  | cons i t ih =>
    intro r
    by_cases h1 : i.name = "TICK"
    · rw [List.cons_append, stressWalk, if_pos h1, stressWalk, if_pos h1, ih (r + 1),
        tickCount_cons, if_pos h1]
      rw [show r + (1 + tickCount t) = r + 1 + tickCount t by omega]
      rfl
    · by_cases h2 : i.name ∈ (["R", "M", "MR"] : List String)
      · rw [List.cons_append, stressWalk, if_neg h1, if_pos h2,
          stressWalk, if_neg h1, if_pos h2, ih r, tickCount_cons, if_neg h1]
        rw [show r + (0 + tickCount t) = r + tickCount t by omega]
        rfl
      · by_cases h3 : i.name ∈ (["CX", "CZ", "H", "S", "X", "Z", "Y"] : List String)
        · rw [List.cons_append, stressWalk, if_neg h1, if_neg h2, if_pos h3,
            stressWalk, if_neg h1, if_neg h2, if_pos h3, ih r, tickCount_cons, if_neg h1]
          rw [show r + (0 + tickCount t) = r + tickCount t by omega]
          rfl
        · rw [List.cons_append, stressWalk, if_neg h1, if_neg h2, if_neg h3,
            stressWalk, if_neg h1, if_neg h2, if_neg h3, ih r, tickCount_cons, if_neg h1]
          rw [show r + (0 + tickCount t) = r + tickCount t by omega]
          rfl

/-- C4: the surgery's round counter starts at 0 and increments on each
TICK marker; every injected noise operation for a non-marker instruction
carries probability `base_p * (1 + drift_strength * sin(2*pi*round/period))`
with `round` the number of TICKs preceding the instruction and
`period = rounds / 2`, where `rounds` defaults to `3*d` when unspecified.
Stated by decomposing the base circuit around an arbitrary instruction:
reset/measure class gets X_ERROR at that probability, one-qubit gate class
DEPOLARIZE1, two-qubit gate class DEPOLARIZE2, TICK advances the counter,
and anything else passes through with no noise. -/
theorem generate_stress_drift_spec (s : ℚ → ℚ) (pi : ℚ) (d : ℕ)
    (base_p drift_strength : ℚ) (rounds : Option ℕ)
    (pre post : List CInstr) (i : CInstr) :
    resolve_rounds d none = 3 * d ∧
    (i.name ∈ (["R", "M", "MR"] : List String) →
      stressWalk s pi base_p drift_strength ((resolve_rounds d rounds : ℚ) / 2) 0
          (pre ++ i :: post) =
        stressWalk s pi base_p drift_strength ((resolve_rounds d rounds : ℚ) / 2) 0 pre ++
          ⟨i.name, i.targets, none⟩ ::
          ⟨"X_ERROR", i.targets, some (base_p * (1 + drift_strength *
            s (2 * pi * (tickCount pre : ℚ) / ((resolve_rounds d rounds : ℚ) / 2))))⟩ ::
          stressWalk s pi base_p drift_strength ((resolve_rounds d rounds : ℚ) / 2)
            (tickCount pre) post) ∧
    (i.name ∈ (["H", "S", "X", "Z", "Y"] : List String) →
      stressWalk s pi base_p drift_strength ((resolve_rounds d rounds : ℚ) / 2) 0
          (pre ++ i :: post) =
        stressWalk s pi base_p drift_strength ((resolve_rounds d rounds : ℚ) / 2) 0 pre ++
          ⟨i.name, i.targets, none⟩ ::
          ⟨"DEPOLARIZE1", i.targets, some (base_p * (1 + drift_strength *
            s (2 * pi * (tickCount pre : ℚ) / ((resolve_rounds d rounds : ℚ) / 2))))⟩ ::
          stressWalk s pi base_p drift_strength ((resolve_rounds d rounds : ℚ) / 2)
            (tickCount pre) post) ∧
    (i.name ∈ (["CX", "CZ"] : List String) →
      stressWalk s pi base_p drift_strength ((resolve_rounds d rounds : ℚ) / 2) 0
          (pre ++ i :: post) =
        stressWalk s pi base_p drift_strength ((resolve_rounds d rounds : ℚ) / 2) 0 pre ++
          ⟨i.name, i.targets, none⟩ ::
          ⟨"DEPOLARIZE2", i.targets, some (base_p * (1 + drift_strength *
            s (2 * pi * (tickCount pre : ℚ) / ((resolve_rounds d rounds : ℚ) / 2))))⟩ ::
          stressWalk s pi base_p drift_strength ((resolve_rounds d rounds : ℚ) / 2)
            (tickCount pre) post) ∧
    (i.name = "TICK" →
      stressWalk s pi base_p drift_strength ((resolve_rounds d rounds : ℚ) / 2) 0
          (pre ++ i :: post) =
        stressWalk s pi base_p drift_strength ((resolve_rounds d rounds : ℚ) / 2) 0 pre ++
          ⟨"TICK", [], none⟩ ::
          stressWalk s pi base_p drift_strength ((resolve_rounds d rounds : ℚ) / 2)
            (tickCount pre + 1) post) ∧
    (i.name ≠ "TICK" → i.name ∉ (["R", "M", "MR"] : List String) →
      i.name ∉ (["CX", "CZ", "H", "S", "X", "Z", "Y"] : List String) →
      stressWalk s pi base_p drift_strength ((resolve_rounds d rounds : ℚ) / 2) 0
          (pre ++ i :: post) =
        stressWalk s pi base_p drift_strength ((resolve_rounds d rounds : ℚ) / 2) 0 pre ++
          i :: stressWalk s pi base_p drift_strength ((resolve_rounds d rounds : ℚ) / 2)
            (tickCount pre) post) := by
  refine ⟨by simp [resolve_rounds, Nat.mul_comm], ?_, ?_, ?_, ?_, ?_⟩
  · intro hm
    have hm' : i.name = "R" ∨ i.name = "M" ∨ i.name = "MR" := by simpa using hm
    have hnt : i.name ≠ "TICK" := by
      rcases hm' with h | h | h <;> rw [h] <;> decide
    rw [stressWalk_append, Nat.zero_add, stressWalk, if_neg hnt, if_pos hm]
    rfl
  · intro hm
    have hm' : i.name = "H" ∨ i.name = "S" ∨ i.name = "X" ∨ i.name = "Z" ∨
        i.name = "Y" := by simpa using hm
    have hnt : i.name ≠ "TICK" := by
      rcases hm' with h | h | h | h | h <;> rw [h] <;> decide
    have hm2 : i.name ∉ (["R", "M", "MR"] : List String) := by
      rcases hm' with h | h | h | h | h <;> rw [h] <;> decide
    have hm3 : i.name ∈ (["CX", "CZ", "H", "S", "X", "Z", "Y"] : List String) := by
      rcases hm' with h | h | h | h | h <;> rw [h] <;> decide
    have hm4 : i.name ∉ (["CX", "CZ"] : List String) := by
      rcases hm' with h | h | h | h | h <;> rw [h] <;> decide
    rw [stressWalk_append, Nat.zero_add, stressWalk, if_neg hnt, if_neg hm2,
      if_pos hm3, if_neg hm4]
    rfl
  · intro hm
    have hm' : i.name = "CX" ∨ i.name = "CZ" := by simpa using hm
    have hnt : i.name ≠ "TICK" := by
      rcases hm' with h | h <;> rw [h] <;> decide
    have hm2 : i.name ∉ (["R", "M", "MR"] : List String) := by
      rcases hm' with h | h <;> rw [h] <;> decide
    have hm3 : i.name ∈ (["CX", "CZ", "H", "S", "X", "Z", "Y"] : List String) := by
      rcases hm' with h | h <;> rw [h] <;> decide
    rw [stressWalk_append, Nat.zero_add, stressWalk, if_neg hnt, if_neg hm2,
      if_pos hm3, if_pos hm]
    rfl
  · intro hm
    rw [stressWalk_append, Nat.zero_add, stressWalk, if_pos hm]
  · intro hnt hm2 hm3
    rw [stressWalk_append, Nat.zero_add, stressWalk, if_neg hnt, if_neg hm2, if_neg hm3]

/-- Witness for C4: a one-instruction prefix holding a TICK, a measure
instruction after it, identity sine, pi = 1. -/
theorem generate_stress_drift_spec_witness :
    (⟨"M", [.qubit 0], none⟩ : CInstr).name ∈ (["R", "M", "MR"] : List String) ∧
    stressWalk (fun x => x) 1 (3/1000) (3/10) ((resolve_rounds 1 (some 4) : ℚ) / 2) 0
        ([⟨"TICK", [], none⟩] ++ ⟨"M", [.qubit 0], none⟩ :: []) =
      stressWalk (fun x => x) 1 (3/1000) (3/10) ((resolve_rounds 1 (some 4) : ℚ) / 2) 0
          [⟨"TICK", [], none⟩] ++
        ⟨"M", [.qubit 0], none⟩ ::
        ⟨"X_ERROR", [.qubit 0], some ((3/1000) * (1 + (3/10) *
          (fun x => x) (2 * 1 * (tickCount [⟨"TICK", [], none⟩] : ℚ) /
            ((resolve_rounds 1 (some 4) : ℚ) / 2))))⟩ ::
        stressWalk (fun x => x) 1 (3/1000) (3/10) ((resolve_rounds 1 (some 4) : ℚ) / 2)
          (tickCount [⟨"TICK", [], none⟩]) [] :=
  ⟨by decide,
    (generate_stress_drift_spec (fun x => x) 1 1 (3/1000) (3/10) (some 4)
      [⟨"TICK", [], none⟩] [] ⟨"M", [.qubit 0], none⟩).2.1 (by decide)⟩

/-- The surgery injects only TICK, X_ERROR, DEPOLARIZE1 and DEPOLARIZE2
operations besides the re-emitted instructions, so a base circuit free
of CORRELATED_ERROR stays free of it. -/
theorem stressWalk_no_correlated (s : ℚ → ℚ) (pi base_p drift period : ℚ)
    (l : List CInstr) (h : ∀ j ∈ l, j.name ≠ "CORRELATED_ERROR") : ∀ r : ℕ,
    ∀ j ∈ stressWalk s pi base_p drift period r l, j.name ≠ "CORRELATED_ERROR" := by
  induction l with
  | nil => intro r j hj; exact absurd hj (by simp [stressWalk])
  | cons i t ih =>
    intro r j hj
    have hi : i.name ≠ "CORRELATED_ERROR" := h i (by simp)
    have ht : ∀ j ∈ t, j.name ≠ "CORRELATED_ERROR" := fun j hj => h j (by simp [hj])
    by_cases h1 : i.name = "TICK"
    · rw [stressWalk, if_pos h1] at hj
      rcases List.mem_cons.mp hj with rfl | hj
      · exact fun hc => absurd (show ("TICK" : String) = "CORRELATED_ERROR" from hc) (by decide)
      · exact ih ht (r + 1) j hj
    · by_cases h2 : i.name ∈ (["R", "M", "MR"] : List String)
      · rw [stressWalk, if_neg h1, if_pos h2] at hj
        rcases List.mem_cons.mp hj with rfl | hj
        · exact hi
        · rcases List.mem_cons.mp hj with rfl | hj
          · exact fun hc =>
              absurd (show ("X_ERROR" : String) = "CORRELATED_ERROR" from hc) (by decide)
          · exact ih ht r j hj
      · by_cases h3 : i.name ∈ (["CX", "CZ", "H", "S", "X", "Z", "Y"] : List String)
        · rw [stressWalk, if_neg h1, if_neg h2, if_pos h3] at hj
          rcases List.mem_cons.mp hj with rfl | hj
          · exact hi
          · rcases List.mem_cons.mp hj with rfl | hj
            · by_cases h4 : i.name ∈ (["CX", "CZ"] : List String)
              · rw [if_pos h4]
                exact fun hc =>
                  absurd (show ("DEPOLARIZE2" : String) = "CORRELATED_ERROR" from hc) (by decide)
              · rw [if_neg h4]
                exact fun hc =>
                  absurd (show ("DEPOLARIZE1" : String) = "CORRELATED_ERROR" from hc) (by decide)
            · exact ih ht r j hj
        · rw [stressWalk, if_neg h1, if_neg h2, if_neg h3] at hj
          rcases List.mem_cons.mp hj with rfl | hj
          · exact hi
          · exact ih ht r j hj

/-- C5: when `burst_prob > 0` the generated circuit is the walked base
circuit with exactly one CORRELATED_ERROR mechanism prepended as its
first instruction, carrying probability `burst_prob` over the Z targets
of the contiguous window of `d` qubit indices starting at the middle
index `d*d/2`; when `burst_prob = 0` no correlated-error mechanism is
present.  The base circuit is assumed CORRELATED_ERROR-free, as the
noiseless generated surface-code circuit is. -/
theorem generate_stress_burst_spec (s : ℚ → ℚ) (pi : ℚ) (d : ℕ)
    (base_p drift_strength burst_prob : ℚ) (rounds : Option ℕ)
    (base : List CInstr)
    (hbase : ∀ j ∈ base, j.name ≠ "CORRELATED_ERROR") :
    (0 < burst_prob →
      generate_stress_circuit s pi d base_p drift_strength burst_prob rounds base =
        ⟨"CORRELATED_ERROR", (List.range' (d * d / 2) d).map .z, some burst_prob⟩ ::
          stressWalk s pi base_p drift_strength ((resolve_rounds d rounds : ℚ) / 2) 0 base ∧
      ((List.range' (d * d / 2) d).length = d) ∧
      (generate_stress_circuit s pi d base_p drift_strength burst_prob rounds
          base).countP (fun j => j.name == "CORRELATED_ERROR") = 1) ∧
    (burst_prob = 0 →
      generate_stress_circuit s pi d base_p drift_strength burst_prob rounds base =
        stressWalk s pi base_p drift_strength ((resolve_rounds d rounds : ℚ) / 2) 0 base ∧
      (generate_stress_circuit s pi d base_p drift_strength burst_prob rounds
          base).countP (fun j => j.name == "CORRELATED_ERROR") = 0) := by
  have hwalk := stressWalk_no_correlated s pi base_p drift_strength
    ((resolve_rounds d rounds : ℚ) / 2) base hbase 0
  have hzero : (stressWalk s pi base_p drift_strength
      ((resolve_rounds d rounds : ℚ) / 2) 0 base).countP
        (fun j => j.name == "CORRELATED_ERROR") = 0 := by
    rw [List.countP_eq_zero]
    intro j hj
    simpa using hwalk j hj
  constructor
  · intro hpos
    have heq : generate_stress_circuit s pi d base_p drift_strength burst_prob rounds base =
        ⟨"CORRELATED_ERROR", (List.range' (d * d / 2) d).map .z, some burst_prob⟩ ::
          stressWalk s pi base_p drift_strength ((resolve_rounds d rounds : ℚ) / 2) 0 base := by
      rw [generate_stress_circuit]
      simp only [if_pos hpos]
    refine ⟨heq, List.length_range' _ _ _, ?_⟩
    rw [heq, List.countP_cons, hzero]
    simp
  · intro hz
    have heq : generate_stress_circuit s pi d base_p drift_strength burst_prob rounds base =
        stressWalk s pi base_p drift_strength ((resolve_rounds d rounds : ℚ) / 2) 0 base := by
      rw [generate_stress_circuit]
      simp [hz]
    exact ⟨heq, by rw [heq]; exact hzero⟩

/-- Witness for C5 at d = 2 with a one-instruction base circuit and a
positive burst probability. -/
theorem generate_stress_burst_spec_witness :
    (∀ j ∈ [(⟨"M", [.qubit 0], none⟩ : CInstr)], j.name ≠ "CORRELATED_ERROR") ∧
    ((0 : ℚ) < 1/20 ∧
      generate_stress_circuit (fun x => x) 1 2 (3/1000) (3/10) (1/20) none
          [⟨"M", [.qubit 0], none⟩] =
        ⟨"CORRELATED_ERROR", (List.range' (2 * 2 / 2) 2).map .z, some (1/20)⟩ ::
          stressWalk (fun x => x) 1 (3/1000) (3/10) ((resolve_rounds 2 none : ℚ) / 2) 0
            [⟨"M", [.qubit 0], none⟩]) :=
  ⟨by decide,
    by
      have h := (generate_stress_burst_spec (fun x => x) 1 2 (3/1000) (3/10) (1/20) none
        [⟨"M", [.qubit 0], none⟩] (by decide)).1 (by norm_num)
      exact ⟨by norm_num, h.1⟩⟩

/-! ## Log-likelihood ratios (dem_utils.py lines 79-94) -/

/-- Numpy's clip: `np.clip(x, lo, hi) = min(max(x, lo), hi)`. -/
def np_clip (x lo hi : ℚ) : ℚ := min (max x lo) hi

/-- The default `clip_min` of `get_channel_llrs`: `1e-10`. -/
def default_clip_min : ℚ := 1 / 10 ^ 10

/-- Embedding of `get_channel_llrs` on one prior (dem_utils.py lines
79-94): clip the probability into `[clip_min, 1 - clip_min]` and return
`log((1 - p) / p)`, the float arithmetic idealised as exact rationals
under the real logarithm. -/
noncomputable def get_channel_llrs (clip_min p : ℚ) : ℝ :=
  Real.log ((1 - ((np_clip p clip_min (1 - clip_min) : ℚ) : ℝ)) /
    ((np_clip p clip_min (1 - clip_min) : ℚ) : ℝ))

theorem np_clip_id (x lo hi : ℚ) (h1 : lo ≤ x) (h2 : x ≤ hi) :
    np_clip x lo hi = x := by
  rw [np_clip, max_eq_left h1, min_eq_left h2]

/-- C6 (amended): with the default clip_min, the llr transform computes
`log((1 - clip(p)) / clip(p))` and is strictly decreasing on the clipped
band `[clip_min, 1 - clip_min]` (not on all of (0,1): pairs below
clip_min are clipped to the same value); at `p = 1/2` it returns exactly
zero. -/
theorem get_channel_llrs_spec (p1 p2 : ℚ)
    (h1 : default_clip_min ≤ p1) (h12 : p1 < p2)
    (h2 : p2 ≤ 1 - default_clip_min) :
    get_channel_llrs default_clip_min p2 < get_channel_llrs default_clip_min p1 ∧
    get_channel_llrs default_clip_min (1 / 2) = 0 := by
  have hcm : (0 : ℚ) < default_clip_min := by norm_num [default_clip_min]
  have hcm2 : default_clip_min < 1 - default_clip_min := by norm_num [default_clip_min]
  have hc1 : np_clip p1 default_clip_min (1 - default_clip_min) = p1 :=
    np_clip_id _ _ _ h1 (le_trans h12.le h2)
  have hc2 : np_clip p2 default_clip_min (1 - default_clip_min) = p2 :=
    np_clip_id _ _ _ (le_trans h1 h12.le) h2
  have hp1 : (0 : ℚ) < p1 := lt_of_lt_of_le hcm h1
  have hp2 : (0 : ℚ) < p2 := lt_trans hp1 h12
  have hq2 : p2 < 1 := by
    have : (1 - default_clip_min : ℚ) < 1 := by norm_num [default_clip_min]
    exact lt_of_le_of_lt h2 this
  constructor
  · rw [get_channel_llrs, get_channel_llrs, hc1, hc2]
    have hx2 : (0 : ℝ) < (1 - (p2 : ℝ)) / (p2 : ℝ) := by
      apply div_pos
      · have : (p2 : ℝ) < 1 := by exact_mod_cast hq2
        linarith
      · exact_mod_cast hp2
    apply Real.log_lt_log hx2
    rw [div_lt_div_iff (by exact_mod_cast hp2) (by exact_mod_cast hp1)]
    have c1 : (0 : ℝ) < (p1 : ℝ) := by exact_mod_cast hp1
    have c12 : (p1 : ℝ) < (p2 : ℝ) := by exact_mod_cast h12
    nlinarith
  · rw [get_channel_llrs,
      np_clip_id _ _ _ (by norm_num [default_clip_min]) (by norm_num [default_clip_min])]
    norm_num

/-- Witness for C6's amended statement at `p1 = 1/4`, `p2 = 1/2`. -/
theorem get_channel_llrs_spec_witness :
    (default_clip_min ≤ (1/4 : ℚ) ∧ (1/4 : ℚ) < 1/2 ∧
      (1/2 : ℚ) ≤ 1 - default_clip_min) ∧
    (get_channel_llrs default_clip_min (1/2) < get_channel_llrs default_clip_min (1/4) ∧
      get_channel_llrs default_clip_min (1/2) = 0) :=
  ⟨⟨by norm_num [default_clip_min], by norm_num, by norm_num [default_clip_min]⟩,
    get_channel_llrs_spec (1/4) (1/2) (by norm_num [default_clip_min]) (by norm_num)
      (by norm_num [default_clip_min])⟩

/-- C6 counterexample: two distinct probabilities inside (0,1) but below
the default clip_min are clipped to the same value, so the transform is
not strictly decreasing over the whole open interval. -/
theorem get_channel_llrs_counterexample :
    (0 : ℚ) < 1 / 10 ^ 20 ∧ (1 / 10 ^ 20 : ℚ) < 1 / 10 ^ 15 ∧
    (1 / 10 ^ 15 : ℚ) < 1 ∧
    get_channel_llrs default_clip_min (1 / 10 ^ 20)
      = get_channel_llrs default_clip_min (1 / 10 ^ 15) := by
  refine ⟨by norm_num, by norm_num, by norm_num, ?_⟩
  have hc1 : np_clip (1 / 10 ^ 20) default_clip_min (1 - default_clip_min)
      = default_clip_min := by
    rw [np_clip, max_eq_right (by norm_num [default_clip_min]),
      min_eq_left (by norm_num [default_clip_min])]
  have hc2 : np_clip (1 / 10 ^ 15) default_clip_min (1 - default_clip_min)
      = default_clip_min := by
    rw [np_clip, max_eq_right (by norm_num [default_clip_min]),
      min_eq_left (by norm_num [default_clip_min])]
  rw [get_channel_llrs, get_channel_llrs, hc1, hc2]

/-! ## The package import graph (src/asr_mp/__init__.py)

Python's `from .m import a, b` looks each requested name up among the
module's top-level bindings and raises ImportError at the first missing
one, aborting the whole package import.  The embedding records, for each
module of the package, the names its top level binds (imports plus defs,
in source order), and the exact from-import list of __init__.py. -/

/-- Top-level names bound by noise_models.py: its imports and the five
generator functions.  Neither `generate_leakage_circuit` nor
`generate_leakage_tasks` is among them. -/
def noise_models_module_names : List String :=
  ["List", "Optional", "np", "sinter", "stim",
   "generate_stress_circuit", "generate_standard_circuit",
   "generate_undeniable_tasks", "generate_standard_tasks",
   "generate_sweep_tasks"]

/-- Top-level names bound by each module of the asr_mp package. -/
def module_names : String → List String
  | "decoder" =>
    ["time", "warnings", "Optional", "np", "sinter", "stim",
     "dem_to_matrices", "BpOsdDecoder", "ASRMPDecoder",
     "TesseractCompiledDecoder", "TesseractBPOSD"]
  | "dem_utils" =>
    ["Tuple", "np", "scipy", "stim", "dem_to_matrices", "get_channel_llrs"]
  | "noise_models" => noise_models_module_names
  | "union_find_decoder" =>
    ["time", "Optional", "np", "sinter", "stim",
     "SolverSerial", "SolverInitializer", "FUSION_BLOSSOM_AVAILABLE",
     "UnionFindDecoder", "UnionFindCompiledDecoder", "UnionFindSinterDecoder"]
  | _ => []

/-- The from-import list of src/asr_mp/__init__.py lines 18-26, in
source order (module, name). -/
def asr_mp_init_imports : List (String × String) :=
  [("decoder", "ASRMPDecoder"), ("decoder", "TesseractBPOSD"),
   ("dem_utils", "dem_to_matrices"),
   ("noise_models", "generate_leakage_circuit"),
   ("noise_models", "generate_leakage_tasks"),
   ("noise_models", "generate_stress_circuit"),
   ("noise_models", "generate_undeniable_tasks"),
   ("union_find_decoder", "UnionFindDecoder")]

/-- Run the from-imports in order; the first name missing from its
module aborts with that name (Python's ImportError). -/
def run_imports : List (String × String) → Except String Unit
  | [] => .ok ()
  | (m, name) :: rest =>
    if name ∈ module_names m then run_imports rest else .error name

/-- The effect of `import asr_mp`: executing the package __init__. -/
def asr_mp_package_import : Except String Unit := run_imports asr_mp_init_imports

/-- C9: importing the asr_mp package always raises ImportError — the
__init__ requests `generate_leakage_circuit` (and `generate_leakage_tasks`)
from noise_models, which defines neither, so the package initialisation
aborts at that name and no public symbol becomes reachable through the
package path. -/
theorem asr_mp_import_fails :
    asr_mp_package_import = .error "generate_leakage_circuit" ∧
    "generate_leakage_circuit" ∉ noise_models_module_names ∧
    "generate_leakage_tasks" ∉ noise_models_module_names := by
  refine ⟨by decide, by decide, by decide⟩

/-! ## Decoder instance state and the frame of decode (C10)

The mutable state of the two decoder classes, with the external solver
calls abstracted: the BP+OSD estimate is `bpdFun`, the fusion-blossom
solver construction is `mk` and its observable read-out `solveObs`, and
the elapsed wall time of a call is the parameter `dt`. -/

/-- The instance attributes set by `ASRMPDecoder.__init__` (decoder.py
lines 47-86): model, matrices, priors, latency log, the four solver
configuration fields, and the solver handle. -/
structure ASRMPState where
  dem : DetectorErrorModel
  H : CSCMat
  L : CSCMat
  priors : List ℚ
  latencies : List ℚ
  bp_method : String
  max_iter : ℕ
  osd_method : String
  osd_order : ℕ
  bpd : ℕ

/-- Embedding of `ASRMPDecoder.decode` (decoder.py lines 88-101): run
the external solver on the syndrome and append the elapsed time to the
latency log; every other field is carried over. -/
def ASRMPState.decode (bpdFun : List Bool → List ℕ) (dt : ℚ)
    (st : ASRMPState) (s : List Bool) : List ℕ × ASRMPState :=
  (bpdFun s, { st with latencies := st.latencies ++ [dt] })

/-- Embedding of `ASRMPDecoder.reset_latencies` (decoder.py lines
122-124). -/
def ASRMPState.reset_latencies (st : ASRMPState) : ASRMPState :=
  { st with latencies := [] }

/-- A sequence of single-shot decode calls, each with its syndrome and
elapsed time. -/
def ASRMPState.decodeRun (bpdFun : List Bool → List ℕ) (st : ASRMPState)
    (shots : List (List Bool × ℚ)) : ASRMPState :=
  shots.foldl (fun acc p => (ASRMPState.decode bpdFun p.2 acc p.1).2) st

/-- The instance attributes set by `UnionFindDecoder.__init__`
(union_find_decoder.py lines 40-61): model, latency log, the solver
initializer handle, and the lazily created solver handle. -/
structure UFState where
  dem : DetectorErrorModel
  latencies : List ℚ
  solver_init : ℕ
  solver : Option ℕ

/-- Embedding of `UnionFindDecoder._get_solver` (union_find_decoder.py
lines 63-67): return the cached solver, creating and storing it on
first use. -/
def UFState.get_solver (mk : ℕ → ℕ) (st : UFState) : ℕ × UFState :=
  match st.solver with
  | some sv => (sv, st)
  | none => (mk st.solver_init, { st with solver := some (mk st.solver_init) })

/-- Embedding of `UnionFindDecoder.decode` (union_find_decoder.py lines
69-99): fetch (or lazily create) the solver, feed it the defect indices,
read one bit per observable, and append the elapsed time to the latency
log. -/
def UFState.decode (mk : ℕ → ℕ) (solveObs : ℕ → List ℕ → ℕ → Bool) (dt : ℚ)
    (st : UFState) (s : List Bool) : List ℕ × UFState :=
  let svst := UFState.get_solver mk st
  ((List.range st.dem.num_observables).map
      fun i => if solveObs svst.1 (defectIndices s) i then 1 else 0,
   { svst.2 with latencies := svst.2.latencies ++ [dt] })

/-- Embedding of `UnionFindDecoder.reset_latencies`
(union_find_decoder.py lines 107-109). -/
def UFState.reset_latencies (st : UFState) : UFState :=
  { st with latencies := [] }

/-- A sequence of union-find single-shot decode calls. -/
def UFState.decodeRun (mk : ℕ → ℕ) (solveObs : ℕ → List ℕ → ℕ → Bool)
    (st : UFState) (shots : List (List Bool × ℚ)) : UFState :=
  shots.foldl (fun acc p => (UFState.decode mk solveObs p.2 acc p.1).2) st

theorem asrmpDecodeRun_latencies (bpdFun : List Bool → List ℕ)
    (shots : List (List Bool × ℚ)) : ∀ st : ASRMPState,
    (ASRMPState.decodeRun bpdFun st shots).latencies.length =
      st.latencies.length + shots.length := by
  induction shots with
  | nil => intro st; simp [ASRMPState.decodeRun]
  | cons p rest ih =>
    intro st
    show (ASRMPState.decodeRun bpdFun (ASRMPState.decode bpdFun p.2 st p.1).2
      rest).latencies.length = _
    rw [ih]
    simp [ASRMPState.decode]
    omega

theorem ufDecodeRun_latencies (mk : ℕ → ℕ)
    (solveObs : ℕ → List ℕ → ℕ → Bool) (shots : List (List Bool × ℚ)) :
    ∀ st : UFState,
    (UFState.decodeRun mk solveObs st shots).latencies.length =
      st.latencies.length + shots.length := by
  induction shots with
  | nil => intro st; simp [UFState.decodeRun]
  | cons p rest ih =>
    intro st
    show (UFState.decodeRun mk solveObs (UFState.decode mk solveObs p.2 st p.1).2
      rest).latencies.length = _
    rw [ih]
    have hl : (UFState.decode mk solveObs p.2 st p.1).2.latencies =
        (UFState.get_solver mk st).2.latencies ++ [p.2] := rfl
    have hg : (UFState.get_solver mk st).2.latencies = st.latencies := by
      rw [UFState.get_solver]
      cases st.solver <;> rfl
    rw [hl, hg]
    simp
    omega

/-- C10 (amended): a decode call leaves the error model, H, L, priors
and every solver-configuration field unchanged and appends exactly one
entry to the latency log, so after `n` decode calls since the last
`reset_latencies` the log has length `n`; for the ASR-MP decoder the
latency log is the only mutated field, while the union-find decoder in
addition populates its lazily created solver handle on the first decode
call (none becomes some; an existing handle is kept). -/
theorem decode_frame_spec (bpdFun : List Bool → List ℕ) (mk : ℕ → ℕ)
    (solveObs : ℕ → List ℕ → ℕ → Bool) (dt : ℚ) (stA : ASRMPState)
    (stU : UFState) (s : List Bool) (shots : List (List Bool × ℚ)) :
    ((ASRMPState.decode bpdFun dt stA s).2.dem = stA.dem ∧
     (ASRMPState.decode bpdFun dt stA s).2.H = stA.H ∧
     (ASRMPState.decode bpdFun dt stA s).2.L = stA.L ∧
     (ASRMPState.decode bpdFun dt stA s).2.priors = stA.priors ∧
     (ASRMPState.decode bpdFun dt stA s).2.bp_method = stA.bp_method ∧
     (ASRMPState.decode bpdFun dt stA s).2.max_iter = stA.max_iter ∧
     (ASRMPState.decode bpdFun dt stA s).2.osd_method = stA.osd_method ∧
     (ASRMPState.decode bpdFun dt stA s).2.osd_order = stA.osd_order ∧
     (ASRMPState.decode bpdFun dt stA s).2.bpd = stA.bpd ∧
     (ASRMPState.decode bpdFun dt stA s).2.latencies = stA.latencies ++ [dt] ∧
     (ASRMPState.decode bpdFun dt stA s).2.latencies.length
       = stA.latencies.length + 1) ∧
    (ASRMPState.decodeRun bpdFun stA.reset_latencies shots).latencies.length
      = shots.length ∧
    ((UFState.decode mk solveObs dt stU s).2.dem = stU.dem ∧
     (UFState.decode mk solveObs dt stU s).2.solver_init = stU.solver_init ∧
     (UFState.decode mk solveObs dt stU s).2.latencies = stU.latencies ++ [dt] ∧
     (UFState.decode mk solveObs dt stU s).2.latencies.length
       = stU.latencies.length + 1 ∧
     (stU.solver = none →
       (UFState.decode mk solveObs dt stU s).2.solver = some (mk stU.solver_init)) ∧
     (∀ sv, stU.solver = some sv →
       (UFState.decode mk solveObs dt stU s).2.solver = some sv)) ∧
    (UFState.decodeRun mk solveObs stU.reset_latencies shots).latencies.length
      = shots.length := by
  refine ⟨⟨rfl, rfl, rfl, rfl, rfl, rfl, rfl, rfl, rfl, rfl, by
      simp [ASRMPState.decode]⟩, ?_, ⟨?_, ?_, ?_, ?_, ?_, ?_⟩, ?_⟩
  · rw [asrmpDecodeRun_latencies]
    simp [ASRMPState.reset_latencies]
  · show (UFState.get_solver mk stU).2.dem = stU.dem
    rw [UFState.get_solver]
    cases stU.solver <;> rfl
  · show (UFState.get_solver mk stU).2.solver_init = stU.solver_init
    rw [UFState.get_solver]
    cases stU.solver <;> rfl
  · show (UFState.get_solver mk stU).2.latencies ++ [dt] = stU.latencies ++ [dt]
    rw [UFState.get_solver]
    cases stU.solver <;> rfl
  · show ((UFState.get_solver mk stU).2.latencies ++ [dt]).length
      = stU.latencies.length + 1
    rw [UFState.get_solver]
    cases stU.solver <;> simp
  · intro hnone
    show (UFState.get_solver mk stU).2.solver = some (mk stU.solver_init)
    rw [UFState.get_solver, hnone]
  · intro sv hsv
    show (UFState.get_solver mk stU).2.solver = some sv
    rw [UFState.get_solver, hsv]
    exact hsv
  · rw [ufDecodeRun_latencies]
    simp [UFState.reset_latencies]

/-- Witness for C10's amended statement on concrete states: a fresh
union-find decoder gains a solver handle on the first call, and two
decode calls after a reset leave a two-entry latency log. -/
theorem decode_frame_spec_witness :
    ((⟨⟨1, 1, []⟩, [], 7, none⟩ : UFState).solver = none ∧
      (UFState.decode (fun n => n) (fun _ _ _ => false) 1
        ⟨⟨1, 1, []⟩, [], 7, none⟩ [true]).2.solver = some 7) ∧
    (UFState.decodeRun (fun n => n) (fun _ _ _ => false)
      (UFState.reset_latencies ⟨⟨1, 1, []⟩, [5], 7, none⟩)
      [([true], 1), ([false], 2)]).latencies.length = 2 :=
  ⟨⟨rfl,
    ((decode_frame_spec (fun _ => []) (fun n => n) (fun _ _ _ => false) 1
      ⟨⟨1, 1, []⟩, ⟨1, 1, fun _ _ => 0⟩, ⟨1, 1, fun _ _ => 0⟩, [], [], "", 0, "", 0, 0⟩
      ⟨⟨1, 1, []⟩, [], 7, none⟩ [true] []).2.2.1.2.2.2.2.1 rfl)⟩,
    (decode_frame_spec (fun _ => []) (fun n => n) (fun _ _ _ => false) 1
      ⟨⟨1, 1, []⟩, ⟨1, 1, fun _ _ => 0⟩, ⟨1, 1, fun _ _ => 0⟩, [], [], "", 0, "", 0, 0⟩
      ⟨⟨1, 1, []⟩, [5], 7, none⟩ [true] [([true], 1), ([false], 2)]).2.2.2⟩

/-- C10 counterexample: on a freshly constructed union-find decoder a
single decode call changes the `_solver` field from `None` to a solver
handle — a mutation of a decoder field other than the latency log. -/
theorem decode_frame_counterexample :
    (UFState.decode (fun n => n) (fun _ _ _ => false) 1
      ⟨⟨1, 1, []⟩, [], 7, none⟩ [true]).2.solver ≠
      (⟨⟨1, 1, []⟩, [], 7, none⟩ : UFState).solver := by
  decide

end Qec
